import Mathlib

/-!
# Verification of the VibeVC snapshot versioning engine

Shallow embedding of `src/vibevc.py`, a local single-user snapshot version
control tool.  File contents are byte strings (`List Nat`); the on-disk
repository state is a `State` record holding the working tree, the parsed
manifest and the snapshot store.  Stateful operations (`commit`, `restore`)
are embedded as explicit state-passing functions returning an outcome
together with the successor state; read-only operations (`status`, `diff`,
`log`) are pure functions of the state.  Time is passed in explicitly as a
second-resolution counter, matching the `%Y%m%d%H%M%S` timestamps the code
derives from `datetime.now()`.  All definitions are executable so that the
theorems can be instantiated on concrete repositories.
-/

namespace VibeVC

/-- A file's byte content. -/
abbrev Content := List Nat

/-- A content digest. -/
abbrev Digest := Nat

/-- Embeds `_hash_file`'s MD5 digesting (`hashlib.md5`, fed in 4096-byte
chunks).  The spec (§4.3) requires only a deterministic fixed-size digest of
the byte content — "a fast, well-distributed non-cryptographic or
cryptographic hash both satisfy the contract" — so MD5 is abstracted by a
concrete 128-bit rolling hash; chunking is irrelevant since the digest is a
function of the whole byte sequence. -/
def md5 (bytes : Content) : Digest :=
  bytes.foldl (fun acc b => (acc * 131 + b) % (2 ^ 128)) 5381

/-- The `IGNORE_PATTERNS` set of `vibevc.py`: path components excluded from
tracking. -/
def IGNORE_PATTERNS : List String :=
  [".vibevc", "__pycache__", ".git", ".DS_Store", "venv", ".idea", ".vscode"]

/-- Splits a character sequence at `/` (the behaviour of
`"…".split("/")` / `str.splitOn "/"` on the underlying characters). -/
def splitSlash : List Char → List (List Char)
  | [] => [[]]
  | c :: cs =>
    match splitSlash cs with
    | [] => if c = '/' then [[], []] else [[c]]
    | seg :: segs => if c = '/' then [] :: seg :: segs else (c :: seg) :: segs

/-- Components of a relative path (separator `/`). -/
def pathComponents (p : String) : List String :=
  (splitSlash p.data).map String.mk

/-- Whether a relative path is excluded from tracking: `os.walk` in
`_get_files` prunes ignored directory names and skips ignored file names,
so exactly the paths with an ignored component are excluded. -/
def isIgnored (p : String) : Bool :=
  (pathComponents p).any (fun c => IGNORE_PATTERNS.contains c)

/-- A working tree (or a snapshot subtree): a finite map from relative path
to byte content, as an association list. -/
abbrev Tree := List (String × Content)

/-- Lexicographic order on code-point sequences: how Python's `sorted`
compares `str` values. -/
def lexLe : List Nat → List Nat → Bool
  | [], _ => true
  | _ :: _, [] => false
  | a :: as, b :: bs =>
    if a < b then true else if b < a then false else lexLe as bs

/-- Python's `str` order: lexicographic comparison of code points. -/
def strLe (a b : String) : Bool :=
  lexLe (a.data.map Char.toNat) (b.data.map Char.toNat)

/-- The path order used by `sorted(...)`, as a decidable relation. -/
def pathLE (a b : String) : Prop := strLe a b = true

instance : DecidableRel pathLE := fun a b =>
  inferInstanceAs (Decidable (strLe a b = true))

/-- Embeds `_get_files`: the sorted list of all non-ignored relative file
paths under the tree (`sorted(file_list)` on path strings). -/
def getFiles (tree : Tree) : List String :=
  ((tree.map Prod.fst).filter (fun p => !isIgnored p)).insertionSort pathLE

/-- Embeds `_hash_file`: the digest of the file at `p`, or `none` when the
file does not exist (the `FileNotFoundError` branch returns `None`). -/
def hashFile (tree : Tree) (p : String) : Option Digest :=
  (tree.lookup p).map md5

/-- A commit record of the manifest.  `version` is optional: records written
by old versions of the tool may lack the key (the code reads it with
`.get('version')`).  `file_map` values are optional digests, mirroring the
fact that `_hash_file` can in principle store `None`. -/
structure Record where
  version : Option String
  id : String
  timestamp : String
  message : String
  file_map : List (String × Option Digest)
deriving Repr, DecidableEq

/-- Repository state: the live working tree (metadata directory excluded),
the parsed manifest (ordered list of commit records, oldest first) and the
snapshot store (`.vibevc/snapshots/<tag>` subtrees, keyed by tag). -/
structure State where
  workingTree : Tree
  manifest : List Record
  snapshots : List (String × Tree)
deriving Repr, DecidableEq

/-- Embeds `_get_commit_by_tag`: first manifest record whose `version`
equals the tag; records lacking a `version` never match (`entry.get`). -/
def getCommitByTag (manifest : List Record) (tag : String) : Option Record :=
  manifest.find? (fun r => r.version == some tag)

/-- The `unique_id` string `datetime.now().strftime("%Y%m%d%H%M%S")`:
an injective encoding of the current second. -/
def formatUniqueId (now : Nat) : String := toString now

/-- The human-readable `timestamp` string (`"%Y-%m-%d %H:%M:%S"`), likewise
a function of the current second. -/
def formatTimestamp (now : Nat) : String := "ts " ++ toString now

/-- Outcome of `commit`. -/
inductive CommitOutcome where
  /-- Snapshot saved under the given tag. -/
  | ok (tag : String)
  /-- `"Version '...' already exists"`: explicit tag found in the manifest. -/
  | errDuplicateVersion
  /-- Uncaught `FileExistsError` from `snapshot_folder.mkdir()`. -/
  | errSnapshotExists
  /-- Uncaught I/O failure inside the per-file copy loop. -/
  | errCopyFailed
deriving Repr, DecidableEq

/-- The files materialised by the copy loop: each listed path with its
working-tree content (`shutil.copy2(src, dst)` preserving relative paths). -/
def copyFiles (wt : Tree) (files : List String) : Tree :=
  files.map (fun p => (p, (wt.lookup p).getD []))

/-- The manifest record appended by a successful commit (step 4 of
`commit`): `version`, `id`, `timestamp`, `message` and the
`file_tracking` map built by hashing each scanned file. -/
def newRecord (wt : Tree) (files : List String)
    (tag uniqueId timestamp message : String) : Record :=
  { version := some tag
    id := uniqueId
    timestamp := timestamp
    message := message
    file_map := files.map (fun p => (p, hashFile wt p)) }

/-- Steps 2–4 of `commit` after the version tag is fixed: create the
snapshot folder (uncaught `FileExistsError` if the tag's subtree already
exists), scan the tree, copy every file while recording its hash, then
append the record to the manifest and save it.  `failAt = some k` (with `k`
less than the number of files) models an I/O failure at the `k`-th copy: the
partially filled snapshot folder survives, but the manifest is never
touched, since `_save_manifest` runs only after the whole loop. -/
def commitCore (st : State) (message timestamp uniqueId tag : String)
    (failAt : Option Nat) : CommitOutcome × State :=
  if (st.snapshots.map Prod.fst).contains tag then
    (.errSnapshotExists, st)
  else
    let files := getFiles st.workingTree
    match failAt with
    | some k =>
      if k < files.length then
        (.errCopyFailed,
          { st with snapshots :=
              st.snapshots ++ [(tag, copyFiles st.workingTree (files.take k))] })
      else
        (.ok tag,
          { st with
              snapshots := st.snapshots ++ [(tag, copyFiles st.workingTree files)]
              manifest := st.manifest ++
                [newRecord st.workingTree files tag uniqueId timestamp message] })
    | none =>
      (.ok tag,
        { st with
            snapshots := st.snapshots ++ [(tag, copyFiles st.workingTree files)]
            manifest := st.manifest ++
              [newRecord st.workingTree files tag uniqueId timestamp message] })

/-- Embeds `commit(message, version_tag)` on an initialised repository.
If an explicit tag is given it must not already be a manifest `version`
(`DuplicateVersion`); otherwise the tag is the timestamp-derived
`unique_id`, with no manifest check. -/
def commitRun (st : State) (now : Nat) (message : String)
    (versionTag : Option String) (failAt : Option Nat) : CommitOutcome × State :=
  let timestamp := formatTimestamp now
  let uniqueId := formatUniqueId now
  match versionTag with
  | some tag =>
    if (getCommitByTag st.manifest tag).isSome then
      (.errDuplicateVersion, st)
    else
      commitCore st message timestamp uniqueId tag failAt
  | none => commitCore st message timestamp uniqueId uniqueId failAt

/-- Outcome of `status`.  `status` is read-only, which the embedding
expresses by typing it as a pure function of the state. -/
inductive StatusOutcome where
  /-- `"No commits yet."`: empty manifest, nothing to compare. -/
  | noCommits
  /-- `"Working directory clean"`. -/
  | clean
  /-- Uncaught `KeyError` from `last_commit['version']` on a record that
  lacks the key. -/
  | keyErrorVersion
  /-- The printed report: current version, then the modified, new and
  deleted path lists. -/
  | report (version : String) (modified new_files deleted : List String)
deriving Repr, DecidableEq

/-- The three classification lists of `status` (in the tuple: modified,
new, deleted), comparing the current scan against a `file_map`:
one pass over `current_files` splitting into new (path not a `file_map`
key) and modified (key present, digest differs), then one pass over the
`file_map` keys collecting those absent from the scan. -/
def statusLists (wt : Tree) (fm : List (String × Option Digest)) :
    List String × List String × List String :=
  let currentFiles := getFiles wt
  let modified := currentFiles.filter (fun f =>
    match fm.lookup f with
    | none => false
    | some h => hashFile wt f != h)
  let new_files := currentFiles.filter (fun f => (fm.lookup f).isNone)
  let deleted := (fm.map Prod.fst).filter (fun f => !currentFiles.contains f)
  (modified, new_files, deleted)

/-- Embeds `status()` on an initialised repository: compares the working
tree against the last commit record's `file_map`; clean when all three
lists are empty; otherwise prints `last_commit['version']` (raising
`KeyError` on a legacy record) followed by the lists. -/
def statusRun (st : State) : StatusOutcome :=
  match st.manifest.getLast? with
  | none => .noCommits
  | some last =>
    let lists := statusLists st.workingTree last.file_map
    if lists.1.isEmpty && lists.2.1.isEmpty && lists.2.2.isEmpty then
      .clean
    else
      match last.version with
      | none => .keyErrorVersion
      | some v => .report v lists.1 lists.2.1 lists.2.2

/-- Outcome of `restore`. -/
inductive RestoreOutcome where
  /-- `"Restored to <tag>"`. -/
  | ok
  /-- `"Version <tag> not found."`: no manifest record with that tag. -/
  | errVersionNotFound
  /-- `"Uncommitted changes detected."`: dirty tree without `--force`. -/
  | errDirtyWorkingTree
deriving Repr, DecidableEq

/-- The safety check of `restore` (its abbreviated reuse of the status
logic): some currently scanned file is absent from the last commit's
`file_map` or has a differing digest.  Files recorded in the `file_map`
but missing from the tree are NOT examined — the loop runs over
`current_files` only. -/
def restoreIsDirty (st : State) : Bool :=
  match st.manifest.getLast? with
  | none => false
  | some last =>
    (getFiles st.workingTree).any (fun f =>
      match last.file_map.lookup f with
      | none => true
      | some h => hashFile st.workingTree f != h)

/-- Embeds `restore(version_tag, force)` on an initialised repository:
look the tag up in the manifest (`VersionNotFound` otherwise); unless
forced, fail on a dirty tree; then wipe every working-tree entry outside
the metadata directory and copy back whatever files are actually present
under `snapshots/<tag>` — `os.walk` of a directory that does not exist
yields nothing, so a missing snapshot subtree restores the empty tree. -/
def restoreRun (st : State) (versionTag : String) (force : Bool) :
    RestoreOutcome × State :=
  match getCommitByTag st.manifest versionTag with
  | none => (.errVersionNotFound, st)
  | some _ =>
    if !force && restoreIsDirty st then
      (.errDirtyWorkingTree, st)
    else
      (.ok, { st with workingTree := (st.snapshots.lookup versionTag).getD [] })

/-- Outcome of `diff`.  The line-level rendering of each differing pair
(`difflib.unified_diff`, and the text/binary distinction) is outside the
embedding — no claim refers to it; the outcome records which files differ. -/
inductive DiffOutcome where
  /-- Silent early return: empty manifest. -/
  | emptyManifest
  /-- Uncaught `KeyError` from `manifest[-1]['version']` on a record
  lacking the key. -/
  | keyErrorVersion
  /-- `"Version <tag> not found."`: the snapshot subtree does not exist. -/
  | errVersionNotFound
  /-- The report: the version diffed against, the differing common paths,
  the paths only in the working tree (new) and only in the snapshot
  (deleted). -/
  | report (version : String) (differing new_files deleted : List String)
deriving Repr, DecidableEq

/-- Embeds `diff(version_tag)`: defaults the tag to
`manifest[-1]['version']` (a raw key access), requires the snapshot
subtree to exist, then classifies the sorted union of current and snapshot
paths: common paths with differing digests, paths only current (new),
paths only in the snapshot (deleted). -/
def diffRun (st : State) (versionTag : Option String) : DiffOutcome :=
  match st.manifest.getLast? with
  | none => .emptyManifest
  | some last =>
    let tagE : Option String :=
      match versionTag with
      | some t => some t
      | none => last.version
    match tagE with
    | none => .keyErrorVersion
    | some tag =>
      match st.snapshots.lookup tag with
      | none => .errVersionNotFound
      | some snapTree =>
        let currentFiles := getFiles st.workingTree
        let snapshotFiles := snapTree.map Prod.fst
        let allFiles :=
          (currentFiles ++
            snapshotFiles.filter (fun p => !currentFiles.contains p)).insertionSort pathLE
        let differing := allFiles.filter (fun f =>
          currentFiles.contains f && snapshotFiles.contains f &&
            hashFile st.workingTree f != hashFile snapTree f)
        let new_files := allFiles.filter (fun f =>
          currentFiles.contains f && !snapshotFiles.contains f)
        let deleted := allFiles.filter (fun f =>
          !currentFiles.contains f && snapshotFiles.contains f)
        .report tag differing new_files deleted

/-- The version label `log` prints for a record:
`entry.get('version', entry.get('id', 'N/A'))` — the `id` fallback for
legacy records lacking a `version` (every record the tool itself writes
carries an `id`, so the `'N/A'` default is unreachable in the model). -/
def logDisplayVersion (r : Record) : String := r.version.getD r.id

/-- Embeds the version column of `log`: records listed most recent first,
each shown under `logDisplayVersion`. -/
def logVersions (manifest : List Record) : List String :=
  manifest.reverse.map logDisplayVersion

/-- One step of OS-level path resolution: `..` removes the last component,
`.` and empty components vanish, anything else is appended.  Models what
the filesystem does with the unresolved string `pathlib` hands to `mkdir`. -/
def resolveStep (acc : List String) (c : String) : List String :=
  if c == ".." then acc.dropLast
  else if c == "." || c == "" then acc
  else acc ++ [c]

/-- Resolution of a component list into a normal form without `..`/`.`. -/
def resolvePath (comps : List String) : List String :=
  comps.foldl resolveStep []

/-- The directory `commit` creates for a snapshot, as resolved components:
`self.snapshots_path / version_tag` is the plain join
`<root>/.vibevc/snapshots/<tag>`, with the tag spliced in as a raw path
fragment and `..` segments resolved by the OS at `mkdir` time.
`rootComps` is the already-resolved absolute repository root. -/
def snapshotFolderComponents (rootComps : List String) (tag : String) :
    List String :=
  resolvePath (rootComps ++ [".vibevc", "snapshots"] ++ pathComponents tag)

/-- The manifest file as seen by `_load_manifest`, before parsing.  A
present file either fails JSON parsing outright (`json.JSONDecodeError`)
or parses into some JSON value: the expected shape (an array of commit
records) or any other syntactically valid JSON value (a number, a string,
an object, an array of non-records…), which `json.load` happily returns. -/
inductive ManifestDoc where
  /-- A byte sequence that is not valid JSON at all. -/
  | malformedSyntax
  /-- A valid JSON array of commit records. -/
  | records (rs : List Record)
  /-- A syntactically valid JSON value of any other shape, identified by a
  description of the value. -/
  | otherShape (descr : String)
deriving Repr, DecidableEq

/-- What `_load_manifest` hands back to its caller. -/
inductive LoadedValue where
  /-- A list of commit records (also the empty-list fallback). -/
  | records (rs : List Record)
  /-- A JSON value of some other shape, returned as-is. -/
  | otherShape (descr : String)
deriving Repr, DecidableEq

/-- Result of `_load_manifest`: whether the corruption warning was printed,
and the returned value. -/
structure LoadResult where
  warned : Bool
  value : LoadedValue
deriving Repr, DecidableEq

/-- Embeds `_load_manifest`: a missing file yields `[]`; a file that fails
JSON parsing prints the corruption warning and yields `[]` (only
`json.JSONDecodeError` is caught); any successfully parsed JSON value is
returned unchanged, whatever its shape. -/
def loadManifest (file : Option ManifestDoc) : LoadResult :=
  match file with
  | none => ⟨false, .records []⟩
  | some .malformedSyntax => ⟨true, .records []⟩
  | some (.records rs) => ⟨false, .records rs⟩
  | some (.otherShape d) => ⟨false, .otherShape d⟩

/-- States reachable from an initialised repository (`init` creates an
empty manifest and an empty snapshot store, over whatever working tree the
user has) by commit operations, with the user free to edit the working
tree in between.  `restore` never touches the manifest or snapshot store,
so its effect on reachability is subsumed by `editTree`. -/
inductive Reachable : State → Prop where
  /-- A freshly initialised repository. -/
  | init (wt : Tree) : Reachable ⟨wt, [], []⟩
  /-- Any `commit` invocation, successful or failed. -/
  | commit (st : State) (now : Nat) (msg : String) (tag : Option String)
      (failAt : Option Nat) : Reachable st →
      Reachable (commitRun st now msg tag failAt).2
  /-- The user rewrites the working tree. -/
  | editTree (st : State) (wt : Tree) : Reachable st →
      Reachable { st with workingTree := wt }

/-- The inductive invariant behind version uniqueness: no two manifest
records share a `version`, every record carries one, and every recorded
version owns an entry in the snapshot store (so a colliding auto-generated
tag is stopped by `snapshot_folder.mkdir()` before the manifest grows). -/
def VersionsOk (st : State) : Prop :=
  (st.manifest.map Record.version).Nodup ∧
  ∀ r ∈ st.manifest, ∃ v, r.version = some v ∧ v ∈ st.snapshots.map Prod.fst

/-- A commit record for version `v1` whose `file_map` tracks `a.txt` with
the digest of the byte `[1]`. -/
def recDel : Record :=
  { version := some "v1", id := "1", timestamp := "ts 1", message := "m",
    file_map := [("a.txt", some (md5 [1]))] }

/-- A repository whose only commit tracked `a.txt`, after the user deleted
`a.txt` from the working tree: the only difference from the last commit is
a deletion. -/
def stDel : State :=
  { workingTree := [], manifest := [recDel],
    snapshots := [("v1", [("a.txt", [1])])] }

/-- A repository whose manifest records version `v1` but whose snapshot
store has no `v1` subtree (e.g. externally deleted), with a clean working
tree still holding `a.txt`. -/
def stGone : State :=
  { workingTree := [("a.txt", [1])], manifest := [recDel], snapshots := [] }

/-- A freshly initialised repository over a one-file working tree. -/
def repoA : State :=
  { workingTree := [("a.txt", [1])], manifest := [], snapshots := [] }

/-- A legacy, timestamp-only commit record lacking the `version` key. -/
def recLegacy : Record :=
  { version := none, id := "20200101000000", timestamp := "ts 0",
    message := "old", file_map := [("a.txt", some (md5 [1]))] }

/-- A repository whose only (and last) commit record is the legacy record
`recLegacy`, and whose working tree has since been modified. -/
def stLegacy : State :=
  { workingTree := [("a.txt", [2])],
    manifest := [recLegacy],
    snapshots := [("20200101000000", [("a.txt", [1])])] }

/-- A commit record tracking `a.txt` and `c.txt`. -/
def recMix : Record :=
  { version := some "v1", id := "1", timestamp := "ts 1", message := "m",
    file_map := [("a.txt", some (md5 [1])), ("c.txt", some (md5 [9]))] }

/-- A repository whose working tree, relative to its one commit `recMix`,
has a modified file (`a.txt`), a new file (`b.txt`) and a deleted file
(`c.txt`). -/
def stMix : State :=
  { workingTree := [("a.txt", [2]), ("b.txt", [3])],
    manifest := [recMix],
    snapshots := [("v1", [("a.txt", [1]), ("c.txt", [9])])] }

/-!
## Filesystem-level embedding of commit and restore

The state model above keys the snapshot store by the raw tag, disjoint from
the working tree.  That is faithful only while the snapshot directory
`snapshots_path / version_tag` actually resolves under `.vibevc/snapshots`;
a tag with traversal segments (see `snapshotFolderComponents`) makes the
real program materialise the snapshot elsewhere — possibly inside the
working tree.  The definitions below re-embed `commit` and `restore` at
the filesystem level: one file store keyed by OS-resolved path components
relative to the repository root, in which working tree and snapshots
coexist, so tag traversal and its interference with the tree wipe are
expressible. -/

/-- Joins character-level path components with `/` (inverse of
`splitSlash` on well-formed components). -/
def joinData : List (List Char) → List Char
  | [] => []
  | [c] => c
  | c :: c' :: cs => c ++ '/' :: joinData (c' :: cs)

/-- The relative path string of a resolved component list. -/
def joinComps (ks : List String) : String :=
  String.mk (joinData (ks.map String.data))

/-- The on-disk files of a repository, keyed by resolved path components
relative to the repository root.  Holds the working tree and everything
under `.vibevc` except the manifest document.  Directories are represented
only through the files inside them (an empty directory is not tracked). -/
abbrev FileStore := List (List String × Content)

/-- Filesystem-level repository state: the file store plus the parsed
manifest document. -/
structure FsState where
  files : FileStore
  manifest : List Record
deriving Repr, DecidableEq

/-- Whether a resolved key has a component in `IGNORE_PATTERNS` — `os.walk`
in `_get_files` prunes such directories and skips such files (`.vibevc`
itself is in the set). -/
def ignoredKey (k : List String) : Bool :=
  k.any (fun c => IGNORE_PATTERNS.contains c)

/-- Embeds `_get_files` at the filesystem level: the sorted relative path
strings of all files whose resolved location has no ignored component. -/
def fsGetFiles (fs : FileStore) : List String :=
  (((fs.map Prod.fst).filter (fun k => !ignoredKey k)).map joinComps).insertionSort pathLE

/-- Embeds `_hash_file` at a resolved location: digest of the file's
content, or `none` when no file is there. -/
def fsHashFile (fs : FileStore) (k : List String) : Option Digest :=
  (fs.lookup k).map md5

/-- The byte content read by `shutil.copy2` from a resolved location. -/
def fsContent (fs : FileStore) (k : List String) : Content :=
  (fs.lookup k).getD []

/-- The OS-resolved snapshot directory for a version tag, relative to the
repository root: the raw join `.vibevc/snapshots/<tag>` with `..` and `.`
segments resolved (cf. `snapshotFolderComponents`; `..` segments reaching
above the root are clamped at the root). -/
def snapDirComps (tag : String) : List String :=
  resolvePath ([".vibevc", "snapshots"] ++ pathComponents tag)

/-- Whether a directory exists on disk as far as a file map can tell: some
file lies strictly inside it.  `snapshot_folder.mkdir()` raises
`FileExistsError` exactly when the directory already exists. -/
def dirHasEntries (fs : FileStore) (dir : List String) : Bool :=
  fs.any (fun kv =>
    decide (dir.length < kv.1.length) && kv.1.take dir.length == dir)

/-- The file entries written by commit's copy loop: each scanned relative
path, placed under the resolved snapshot directory with its working-tree
content. -/
def fsCopyEntries (fs : FileStore) (dir : List String) (files : List String) :
    FileStore :=
  files.map (fun p => (dir ++ pathComponents p, fsContent fs (pathComponents p)))

/-- The manifest record appended by a successful filesystem-level commit. -/
def fsNewRecord (fs : FileStore) (files : List String)
    (tag uniqueId timestamp message : String) : Record :=
  { version := some tag
    id := uniqueId
    timestamp := timestamp
    message := message
    file_map := files.map (fun p => (p, fsHashFile fs (pathComponents p))) }

/-- The successor state of a filesystem-level commit that succeeds under
the given tag at the given second. -/
def fsCommitSuccessState (st : FsState) (now : Nat) (message tag : String) :
    FsState :=
  { files := st.files ++
      fsCopyEntries st.files (snapDirComps tag) (fsGetFiles st.files)
    manifest := st.manifest ++
      [fsNewRecord st.files (fsGetFiles st.files) tag
        (formatUniqueId now) (formatTimestamp now) message] }

/-- Steps 2–4 of `commit` at the filesystem level: create the resolved
snapshot directory (failing if it already holds entries), scan (the fresh
directory is empty, so the scan is unaffected even when it resolves into
the working tree), copy every scanned file under it while hashing, then
append and save the manifest record.  As in `commitCore`, `failAt = some k`
models an I/O failure at the `k`-th copy. -/
def fsCommitCore (st : FsState) (message timestamp uniqueId tag : String)
    (failAt : Option Nat) : CommitOutcome × FsState :=
  let snapDir := snapDirComps tag
  if dirHasEntries st.files snapDir then
    (.errSnapshotExists, st)
  else
    let files := fsGetFiles st.files
    match failAt with
    | some k =>
      if k < files.length then
        (.errCopyFailed,
          { st with files := st.files ++ fsCopyEntries st.files snapDir (files.take k) })
      else
        (.ok tag,
          { files := st.files ++ fsCopyEntries st.files snapDir files
            manifest := st.manifest ++
              [fsNewRecord st.files files tag uniqueId timestamp message] })
    | none =>
      (.ok tag,
        { files := st.files ++ fsCopyEntries st.files snapDir files
          manifest := st.manifest ++
            [fsNewRecord st.files files tag uniqueId timestamp message] })

/-- Embeds `commit(message, version_tag)` at the filesystem level,
mirroring `commitRun`'s tag resolution. -/
def fsCommit (st : FsState) (now : Nat) (message : String)
    (versionTag : Option String) (failAt : Option Nat) : CommitOutcome × FsState :=
  let timestamp := formatTimestamp now
  let uniqueId := formatUniqueId now
  match versionTag with
  | some tag =>
    if (getCommitByTag st.manifest tag).isSome then
      (.errDuplicateVersion, st)
    else
      fsCommitCore st message timestamp uniqueId tag failAt
  | none => fsCommitCore st message timestamp uniqueId uniqueId failAt

/-- Restore's dirty check at the filesystem level (same
current-files-only loop as `restoreIsDirty`). -/
def fsIsDirty (st : FsState) : Bool :=
  match st.manifest.getLast? with
  | none => false
  | some last =>
    (fsGetFiles st.files).any (fun f =>
      match last.file_map.lookup f with
      | none => true
      | some h => fsHashFile st.files (pathComponents f) != h)

/-- The file store produced by restore's destructive phase and copy-back:
the wipe keeps exactly the entries under `.vibevc` (`root.iterdir()`
spares only the metadata directory — a snapshot that resolved elsewhere
is deleted too); the copy-back then walks the resolved snapshot directory
on the post-wipe disk and copies every file found there to its re-rooted
relative location. -/
def fsRestoredFiles (fs : FileStore) (tag : String) : FileStore :=
  let kept := fs.filter (fun kv => kv.1.head? == some ".vibevc")
  let snapDir := snapDirComps tag
  kept ++ (kept.filter (fun kv =>
    decide (snapDir.length < kv.1.length) &&
      kv.1.take snapDir.length == snapDir)).map
    (fun kv => (kv.1.drop snapDir.length, kv.2))

/-- Embeds `restore(version_tag, force)` at the filesystem level: the
manifest lookup, the dirty guard, then the destructive wipe and copy-back
of `fsRestoredFiles`. -/
def fsRestore (st : FsState) (versionTag : String) (force : Bool) :
    RestoreOutcome × FsState :=
  match getCommitByTag st.manifest versionTag with
  | none => (.errVersionNotFound, st)
  | some _ =>
    if !force && fsIsDirty st then
      (.errDirtyWorkingTree, st)
    else
      (.ok, { st with files := fsRestoredFiles st.files versionTag })

/-- The working-tree portion of a file store: everything outside the
metadata directory. -/
def fsWorkingTree (fs : FileStore) : FileStore :=
  fs.filter (fun kv => kv.1.head? != some ".vibevc")

/-- The scan-and-hash view of a file store's working tree: every scanned
relative path with its digest. -/
def fsScanAndHash (fs : FileStore) : List (String × Option Digest) :=
  (fsGetFiles fs).map (fun p => (p, fsHashFile fs (pathComponents p)))

/-- Well-formedness of a file store as a filesystem image: every key is a
nonempty list of real file-name components (nonempty, not `.` or `..`,
containing no `/`), and no two files share a location. -/
def wfComp (c : String) : Bool :=
  c != "" && c != "." && c != ".." && !c.data.contains '/'

/-- Well-formedness of one resolved key. -/
def wfKey (k : List String) : Bool :=
  !k.isEmpty && k.all wfComp

/-- Well-formedness of a whole file store. -/
def FsWF (fs : FileStore) : Prop :=
  (∀ k ∈ fs.map Prod.fst, wfKey k = true) ∧ (fs.map Prod.fst).Nodup

instance (fs : FileStore) : Decidable (FsWF fs) :=
  inferInstanceAs (Decidable ((∀ k ∈ fs.map Prod.fst, wfKey k = true) ∧
    (fs.map Prod.fst).Nodup))

/-- A freshly initialised filesystem-level repository over a one-file
working tree. -/
def fsRepoA : FsState :=
  { files := [(["a.txt"], [1])], manifest := [] }

/-! ## Order properties of the path order -/

theorem lexLe_total : ∀ xs ys : List Nat, lexLe xs ys = true ∨ lexLe ys xs = true
  | [], _ => Or.inl rfl
  | _ :: _, [] => Or.inr rfl
  | a :: as, b :: bs => by
    rcases Nat.lt_trichotomy a b with h | h | h
    · left; simp [lexLe, h]
    · subst h
      rcases lexLe_total as bs with ih | ih <;> simp [lexLe, ih]
    · right; simp [lexLe, h]

theorem lexLe_trans : ∀ {xs ys zs : List Nat},
    lexLe xs ys = true → lexLe ys zs = true → lexLe xs zs = true
  | [], _, _, _, _ => rfl
  | _ :: _, [], _, h1, _ => by simp [lexLe] at h1
  | _ :: _, _ :: _, [], _, h2 => by simp [lexLe] at h2
  | x :: xs, y :: ys, z :: zs, h1, h2 => by
    simp only [lexLe] at h1 h2 ⊢
    rcases Nat.lt_trichotomy x y with hxy | hxy | hxy
    · rcases Nat.lt_trichotomy y z with hyz | hyz | hyz
      · simp [Nat.lt_trans hxy hyz]
      · subst hyz; simp [hxy]
      · simp [hyz, Nat.lt_asymm hyz] at h2
    · subst hxy
      rcases Nat.lt_trichotomy x z with hxz | hxz | hxz
      · simp [hxz]
      · subst hxz
        simp only [Nat.lt_irrefl, if_false] at h1 h2 ⊢
        exact lexLe_trans h1 h2
      · simp [hxz, Nat.lt_asymm hxz] at h2
    · simp [hxy, Nat.lt_asymm hxy] at h1

instance : IsTotal String pathLE :=
  ⟨fun a b => lexLe_total (a.data.map Char.toNat) (b.data.map Char.toNat)⟩

instance : IsTrans String pathLE :=
  ⟨fun _ _ _ h1 h2 => lexLe_trans h1 h2⟩

/-! ## Association-list helper lemmas -/

theorem contains_iff_mem {κ : Type} [BEq κ] [LawfulBEq κ] {l : List κ} {a : κ} :
    l.contains a = true ↔ a ∈ l := by
  rw [List.contains_eq_any_beq, List.any_eq_true]
  constructor
  · rintro ⟨x, hx, hax⟩
    exact (eq_of_beq hax) ▸ hx
  · intro h
    exact ⟨a, h, beq_self_eq_true a⟩

theorem not_mem_of_contains_eq_false {κ : Type} [BEq κ] [LawfulBEq κ]
    {l : List κ} {a : κ} (h : l.contains a = false) : a ∉ l := by
  intro hmem
  rw [← contains_iff_mem] at hmem
  rw [h] at hmem
  exact Bool.false_ne_true hmem

theorem lookup_isSome_of_mem_keys {κ α : Type} [BEq κ] [LawfulBEq κ]
    {l : List (κ × α)} {k : κ} (h : k ∈ l.map Prod.fst) :
    ∃ v, l.lookup k = some v := by
  induction l with
  | nil => simp at h
  | cons a l ih =>
    rw [List.lookup_cons]
    rcases List.mem_cons.1 h with h1 | h1
    · simp [h1.symm]
    · by_cases hk : k == a.1
      · simp [hk]
      · simp only [Bool.not_eq_true] at hk
        simpa [hk] using ih h1

theorem lookup_append_of_not_mem {κ α : Type} [BEq κ] [LawfulBEq κ]
    (l1 l2 : List (κ × α)) (k : κ) (h : k ∉ l1.map Prod.fst) :
    (l1 ++ l2).lookup k = l2.lookup k := by
  induction l1 with
  | nil => rfl
  | cons a l1 ih =>
    simp only [List.map_cons, List.mem_cons, not_or] at h
    rw [List.cons_append, List.lookup_cons]
    have : (k == a.1) = false := beq_false_of_ne h.1
    simp [this, ih h.2]

theorem lookup_map_keyed {γ κ β : Type} [BEq κ] [LawfulBEq κ]
    (F : γ → κ) (G : κ → β) (l : List γ) (x : γ) (hx : x ∈ l) :
    (l.map (fun q => (F q, G (F q)))).lookup (F x) = some (G (F x)) := by
  induction l with
  | nil => simp at hx
  | cons q l ih =>
    rw [List.map_cons, List.lookup_cons]
    by_cases hq : F x == F q
    · simp only [hq]
      rw [eq_of_beq hq]
    · rcases List.mem_cons.1 hx with h1 | h1
      · subst h1
        exact absurd (beq_self_eq_true (F x)) hq
      · simp only [Bool.not_eq_true] at hq
        simpa [hq] using ih h1

/-! ## Path split/join round-trip -/

theorem splitSlash_ne_nil (l : List Char) : splitSlash l ≠ [] := by
  cases l with
  | nil => simp [splitSlash]
  | cons c cs =>
    rw [splitSlash]
    cases splitSlash cs with
    | nil => by_cases h : c = '/' <;> simp [h]
    | cons seg segs => by_cases h : c = '/' <;> simp [h]

theorem splitSlash_no_slash : ∀ l : List Char, ('/' : Char) ∉ l → splitSlash l = [l]
  | [], _ => rfl
  | c :: cs, h => by
    have hc : ¬c = '/' := by
      intro hcc
      subst hcc
      exact h (List.mem_cons_self _ _)
    have hcs : ('/' : Char) ∉ cs := fun hm => h (List.mem_cons_of_mem c hm)
    rw [splitSlash, splitSlash_no_slash cs hcs]
    simp [hc]

theorem splitSlash_append : ∀ (c d : List Char), ('/' : Char) ∉ c →
    splitSlash (c ++ '/' :: d) = c :: splitSlash d
  | [], d, _ => by
    rw [List.nil_append, splitSlash]
    cases h : splitSlash d with
    | nil => exact absurd h (splitSlash_ne_nil d)
    | cons seg segs => simp
  | ch :: c, d, h => by
    have hch : ¬ch = '/' := by
      intro hcc
      subst hcc
      exact h (List.mem_cons_self _ _)
    have hc : ('/' : Char) ∉ c := fun hm => h (List.mem_cons_of_mem ch hm)
    rw [List.cons_append, splitSlash, splitSlash_append c d hc]
    simp [hch]

theorem splitSlash_joinData : ∀ cs : List (List Char), cs ≠ [] →
    (∀ c ∈ cs, ('/' : Char) ∉ c) → splitSlash (joinData cs) = cs
  | [], h, _ => absurd rfl h
  | [c], _, h => by
    rw [joinData]
    exact splitSlash_no_slash c (h c (List.mem_cons_self _ _))
  | c :: c' :: cs, _, h => by
    rw [joinData, splitSlash_append _ _ (h c (List.mem_cons_self _ _)),
      splitSlash_joinData (c' :: cs) (by simp)
        (fun x hx => h x (List.mem_cons_of_mem c hx))]

theorem pathComponents_joinComps (ks : List String) (h1 : ks ≠ [])
    (h2 : ∀ c ∈ ks, ('/' : Char) ∉ c.data) :
    pathComponents (joinComps ks) = ks := by
  rw [pathComponents, joinComps]
  have hdata : (String.mk (joinData (ks.map String.data))).data =
      joinData (ks.map String.data) := rfl
  rw [hdata, splitSlash_joinData (ks.map String.data) (by simpa using h1)
    (by
      intro c hc
      obtain ⟨s, hs, rfl⟩ := List.mem_map.1 hc
      exact h2 s hs)]
  calc (ks.map String.data).map String.mk
      = ks.map (fun s => String.mk s.data) := by rw [List.map_map]; rfl
    _ = ks.map id := List.map_congr_left (fun s _ => rfl)
    _ = ks := List.map_id ks

theorem wfKey_spec {k : List String} (h : wfKey k = true) :
    k ≠ [] ∧ ∀ c ∈ k, ('/' : Char) ∉ c.data := by
  rw [wfKey, Bool.and_eq_true, List.all_eq_true] at h
  refine ⟨?_, ?_⟩
  · intro hk
    subst hk
    simp at h
  · intro c hc
    have hcomp := h.2 c hc
    rw [wfComp] at hcomp
    simp only [Bool.and_eq_true, Bool.not_eq_true'] at hcomp
    exact not_mem_of_contains_eq_false hcomp.2

theorem pathComponents_joinComps_of_wf {k : List String} (h : wfKey k = true) :
    pathComponents (joinComps k) = k :=
  pathComponents_joinComps k (wfKey_spec h).1 (wfKey_spec h).2

/-! ## Characterisation of `commit`'s outcomes -/

/-- The successor state of a commit that succeeds under tag `tag`. -/
def commitSuccessState (st : State) (now : Nat) (message tag : String) : State :=
  { st with
      snapshots := st.snapshots ++
        [(tag, copyFiles st.workingTree (getFiles st.workingTree))]
      manifest := st.manifest ++
        [newRecord st.workingTree (getFiles st.workingTree) tag
          (formatUniqueId now) (formatTimestamp now) message] }

theorem commitCore_ok {st : State} {message timestamp uniqueId tag tag' : String}
    {failAt : Option Nat} {st' : State}
    (h : commitCore st message timestamp uniqueId tag failAt = (.ok tag', st')) :
    tag' = tag ∧ (st.snapshots.map Prod.fst).contains tag = false ∧
    st' = { st with
      snapshots := st.snapshots ++
        [(tag, copyFiles st.workingTree (getFiles st.workingTree))]
      manifest := st.manifest ++
        [newRecord st.workingTree (getFiles st.workingTree) tag
          uniqueId timestamp message] } := by
  unfold commitCore at h
  by_cases hc : (st.snapshots.map Prod.fst).contains tag
  · rw [if_pos hc] at h
    exact absurd (congrArg Prod.fst h) (by simp)
  · rw [if_neg hc] at h
    dsimp only at h
    refine ⟨?_, by simpa using hc, ?_⟩ <;>
    · cases failAt with
      | none =>
        injection h with h1 h2
        injection h1 with h1
        first | exact h1.symm | exact h2.symm
      | some k =>
        dsimp only at h
        by_cases hk : k < (getFiles st.workingTree).length
        · rw [if_pos hk] at h
          exact absurd (congrArg Prod.fst h) (by simp)
        · rw [if_neg hk] at h
          injection h with h1 h2
          injection h1 with h1
          first | exact h1.symm | exact h2.symm

theorem commitRun_ok {st : State} {now : Nat} {message : String}
    {versionTag : Option String} {failAt : Option Nat} {tag : String} {st' : State}
    (h : commitRun st now message versionTag failAt = (.ok tag, st')) :
    (st.snapshots.map Prod.fst).contains tag = false ∧
    st' = commitSuccessState st now message tag ∧
    (versionTag = none → tag = formatUniqueId now) ∧
    (∀ t, versionTag = some t →
      tag = t ∧ (getCommitByTag st.manifest t).isSome = false) := by
  unfold commitRun at h
  split at h
  · next t =>
    split at h
    · exact absurd (congrArg Prod.fst h) (by simp)
    · next hdup =>
      obtain ⟨rfl, hc, rfl⟩ := commitCore_ok h
      exact ⟨hc, rfl, by simp, fun t' ht' => by
        cases ht'; exact ⟨rfl, by simpa using hdup⟩⟩
  · obtain ⟨rfl, hc, rfl⟩ := commitCore_ok h
    exact ⟨hc, rfl, fun _ => rfl, fun t' ht' => by cases ht'⟩

theorem commitRun_duplicate (st : State) (now : Nat) (msg tag : String)
    (failAt : Option Nat) (h : (getCommitByTag st.manifest tag).isSome) :
    commitRun st now msg (some tag) failAt = (.errDuplicateVersion, st) := by
  unfold commitRun
  dsimp only
  rw [if_pos h]

theorem commitCore_cases (st : State) (message timestamp uniqueId tag : String)
    (failAt : Option Nat) :
    (commitCore st message timestamp uniqueId tag failAt =
        (.ok tag,
          { st with
              snapshots := st.snapshots ++
                [(tag, copyFiles st.workingTree (getFiles st.workingTree))]
              manifest := st.manifest ++
                [newRecord st.workingTree (getFiles st.workingTree) tag
                  uniqueId timestamp message] }) ∧
      (st.snapshots.map Prod.fst).contains tag = false) ∨
    (commitCore st message timestamp uniqueId tag failAt = (.errSnapshotExists, st) ∧
      (st.snapshots.map Prod.fst).contains tag = true) ∨
    (∃ part : Tree,
      commitCore st message timestamp uniqueId tag failAt =
        (.errCopyFailed, { st with snapshots := st.snapshots ++ [(tag, part)] }) ∧
      (st.snapshots.map Prod.fst).contains tag = false) := by
  unfold commitCore
  by_cases hc : (st.snapshots.map Prod.fst).contains tag
  · rw [if_pos hc]
    exact Or.inr (Or.inl ⟨rfl, hc⟩)
  · rw [if_neg hc]
    dsimp only
    have hc' : (st.snapshots.map Prod.fst).contains tag = false := by simpa using hc
    cases failAt with
    | none => exact Or.inl ⟨rfl, hc'⟩
    | some k =>
      dsimp only
      by_cases hk : k < (getFiles st.workingTree).length
      · rw [if_pos hk]
        exact Or.inr (Or.inr ⟨_, rfl, hc'⟩)
      · rw [if_neg hk]
        exact Or.inl ⟨rfl, hc'⟩

theorem commitRun_cases (st : State) (now : Nat) (msg : String)
    (tagOpt : Option String) (failAt : Option Nat) :
    (∃ tag, commitRun st now msg tagOpt failAt =
        (.ok tag, commitSuccessState st now msg tag) ∧
      (st.snapshots.map Prod.fst).contains tag = false) ∨
    ((commitRun st now msg tagOpt failAt).2 = st) ∨
    (∃ tag part, commitRun st now msg tagOpt failAt =
        (.errCopyFailed, { st with snapshots := st.snapshots ++ [(tag, part)] })) := by
  unfold commitRun
  dsimp only
  cases tagOpt with
  | some t =>
    dsimp only
    by_cases hd : (getCommitByTag st.manifest t).isSome
    · rw [if_pos hd]
      exact Or.inr (Or.inl rfl)
    · rw [if_neg hd]
      rcases commitCore_cases st msg (formatTimestamp now) (formatUniqueId now) t failAt with
        ⟨h, hc⟩ | ⟨h, _⟩ | ⟨part, h, _⟩
      · exact Or.inl ⟨t, h, hc⟩
      · exact Or.inr (Or.inl (congrArg Prod.snd h))
      · exact Or.inr (Or.inr ⟨t, part, h⟩)
  | none =>
    dsimp only
    rcases commitCore_cases st msg (formatTimestamp now) (formatUniqueId now)
        (formatUniqueId now) failAt with ⟨h, hc⟩ | ⟨h, _⟩ | ⟨part, h, _⟩
    · exact Or.inl ⟨formatUniqueId now, h, hc⟩
    · exact Or.inr (Or.inl (congrArg Prod.snd h))
    · exact Or.inr (Or.inr ⟨formatUniqueId now, part, h⟩)

/-! ## The version-uniqueness invariant -/

theorem versionsOk_commitRun (st : State) (now : Nat) (msg : String)
    (tagOpt : Option String) (failAt : Option Nat) (h : VersionsOk st) :
    VersionsOk (commitRun st now msg tagOpt failAt).2 := by
  rcases commitRun_cases st now msg tagOpt failAt with
    ⟨tag, heq, hc⟩ | heq | ⟨tag, part, heq⟩
  · rw [heq]
    have htag : tag ∉ st.snapshots.map Prod.fst := by
      intro hmem
      rw [List.contains_eq_any_beq] at hc
      have hany : ((st.snapshots.map Prod.fst).any fun x => tag == x) = true :=
        List.any_eq_true.2 ⟨tag, hmem, beq_self_eq_true tag⟩
      rw [hc] at hany
      exact Bool.false_ne_true hany
    constructor
    · rw [commitSuccessState]
      dsimp only
      rw [List.map_append, List.nodup_append]
      refine ⟨h.1, by simp [newRecord], ?_⟩
      intro v hv hv'
      simp only [newRecord, List.map_cons, List.map_nil, List.mem_singleton] at hv'
      subst hv'
      obtain ⟨r, hr, hrv⟩ := List.mem_map.1 hv
      obtain ⟨v', hv', hmem⟩ := h.2 r hr
      rw [hv'] at hrv
      have hvt : v' = tag := Option.some_injective _ hrv
      exact htag (hvt ▸ hmem)
    · intro r hr
      rw [commitSuccessState] at hr ⊢
      dsimp only at hr ⊢
      rcases List.mem_append.1 hr with hr | hr
      · obtain ⟨v, hv, hmem⟩ := h.2 r hr
        exact ⟨v, hv, by rw [List.map_append]; exact List.mem_append_left _ hmem⟩
      · simp only [List.mem_singleton] at hr
        subst hr
        exact ⟨tag, rfl, by simp⟩
  · rw [heq]; exact h
  · rw [heq]
    refine ⟨h.1, fun r hr => ?_⟩
    obtain ⟨v, hv, hmem⟩ := h.2 r hr
    exact ⟨v, hv, by rw [List.map_append]; exact List.mem_append_left _ hmem⟩

theorem versionsOk_of_reachable {st : State} (h : Reachable st) : VersionsOk st := by
  induction h with
  | init wt => exact ⟨List.nodup_nil, fun r hr => absurd hr (List.not_mem_nil r)⟩
  | commit st now msg tag failAt _ ih => exact versionsOk_commitRun st now msg tag failAt ih
  | editTree st wt _ ih => exact ih

/-! ## Characterisation of the filesystem-level commit and restore -/

theorem fsCommitCore_ok {st : FsState} {message timestamp uniqueId tag tag' : String}
    {failAt : Option Nat} {st' : FsState}
    (h : fsCommitCore st message timestamp uniqueId tag failAt = (.ok tag', st')) :
    tag' = tag ∧ dirHasEntries st.files (snapDirComps tag) = false ∧
    st' = { files := st.files ++
              fsCopyEntries st.files (snapDirComps tag) (fsGetFiles st.files)
            manifest := st.manifest ++
              [fsNewRecord st.files (fsGetFiles st.files) tag
                uniqueId timestamp message] } := by
  unfold fsCommitCore at h
  dsimp only at h
  by_cases hc : dirHasEntries st.files (snapDirComps tag)
  · rw [if_pos hc] at h
    exact absurd (congrArg Prod.fst h) (by simp)
  · rw [if_neg hc] at h
    refine ⟨?_, by simpa using hc, ?_⟩ <;>
    · cases failAt with
      | none =>
        injection h with h1 h2
        injection h1 with h1
        first | exact h1.symm | exact h2.symm
      | some k =>
        dsimp only at h
        by_cases hk : k < (fsGetFiles st.files).length
        · rw [if_pos hk] at h
          exact absurd (congrArg Prod.fst h) (by simp)
        · rw [if_neg hk] at h
          injection h with h1 h2
          injection h1 with h1
          first | exact h1.symm | exact h2.symm

theorem fsCommit_ok {st : FsState} {now : Nat} {message : String}
    {versionTag : Option String} {failAt : Option Nat} {tag : String} {st' : FsState}
    (h : fsCommit st now message versionTag failAt = (.ok tag, st')) :
    dirHasEntries st.files (snapDirComps tag) = false ∧
    st' = fsCommitSuccessState st now message tag ∧
    (versionTag = none → tag = formatUniqueId now) ∧
    (∀ t, versionTag = some t →
      tag = t ∧ (getCommitByTag st.manifest t).isSome = false) := by
  unfold fsCommit at h
  split at h
  · next t =>
    split at h
    · exact absurd (congrArg Prod.fst h) (by simp)
    · next hdup =>
      obtain ⟨rfl, hc, rfl⟩ := fsCommitCore_ok h
      exact ⟨hc, rfl, by simp, fun t' ht' => by
        cases ht'; exact ⟨rfl, by simpa using hdup⟩⟩
  · obtain ⟨rfl, hc, rfl⟩ := fsCommitCore_ok h
    exact ⟨hc, rfl, fun _ => rfl, fun t' ht' => by cases ht'⟩

theorem fsCommitCore_copyFail {st : FsState}
    {message timestamp uniqueId tag : String} {failAt : Option Nat}
    (h : (fsCommitCore st message timestamp uniqueId tag failAt).1 = .errCopyFailed) :
    (fsCommitCore st message timestamp uniqueId tag failAt).2.manifest =
      st.manifest := by
  unfold fsCommitCore at h ⊢
  dsimp only at h ⊢
  by_cases hc : dirHasEntries st.files (snapDirComps tag)
  · rw [if_pos hc] at h ⊢
  · rw [if_neg hc] at h ⊢
    cases failAt with
    | none => simp at h
    | some k =>
      dsimp only at h ⊢
      by_cases hk : k < (fsGetFiles st.files).length
      · rw [if_pos hk]
      · rw [if_neg hk] at h
        simp at h

theorem fsCommit_copyFail {st : FsState} {now : Nat} {message : String}
    {versionTag : Option String} {failAt : Option Nat}
    (h : (fsCommit st now message versionTag failAt).1 = .errCopyFailed) :
    (fsCommit st now message versionTag failAt).2.manifest = st.manifest := by
  unfold fsCommit at h ⊢
  split at h
  · next t =>
    split at h
    · simp at h
    · next hdup =>
      dsimp only
      rw [if_neg hdup]
      exact fsCommitCore_copyFail h
  · exact fsCommitCore_copyFail h

theorem fsRestore_found {st : FsState} {tag : String} {r : Record}
    (h : getCommitByTag st.manifest tag = some r) (force : Bool) :
    fsRestore st tag force =
      if !force && fsIsDirty st then (.errDirtyWorkingTree, st)
      else (.ok, { st with files := fsRestoredFiles st.files tag }) := by
  rw [fsRestore, h]

theorem mem_fsGetFiles {fs : FileStore} {p : String} :
    p ∈ fsGetFiles fs ↔
    ∃ k, k ∈ fs.map Prod.fst ∧ ignoredKey k = false ∧ joinComps k = p := by
  rw [fsGetFiles, List.mem_insertionSort, List.mem_map]
  constructor
  · rintro ⟨k, hk, rfl⟩
    obtain ⟨hmem, hig⟩ := List.mem_filter.1 hk
    exact ⟨k, hmem, by simpa using hig, rfl⟩
  · rintro ⟨k, hmem, hig, rfl⟩
    exact ⟨k, List.mem_filter.2 ⟨hmem, by simpa using hig⟩, rfl⟩

theorem fsGetFiles_spec {fs : FileStore} (hwf : FsWF fs) {p : String}
    (hp : p ∈ fsGetFiles fs) :
    pathComponents p ∈ fs.map Prod.fst ∧ ignoredKey (pathComponents p) = false ∧
    joinComps (pathComponents p) = p ∧ pathComponents p ≠ [] := by
  obtain ⟨k, hmem, hig, rfl⟩ := mem_fsGetFiles.1 hp
  have hwfk := hwf.1 k hmem
  rw [pathComponents_joinComps_of_wf hwfk]
  exact ⟨hmem, hig, rfl, (wfKey_spec hwfk).1⟩

theorem ignoredKey_of_head_vibevc {k : List String}
    (h : k.head? = some ".vibevc") : ignoredKey k = true := by
  cases k with
  | nil => simp at h
  | cons c cs =>
    rw [List.head?_cons, Option.some_inj] at h
    subst h
    rw [ignoredKey, List.any_eq_true]
    exact ⟨".vibevc", List.mem_cons_self _ _, by decide⟩

theorem fsCopyEntries_mem {fs : FileStore} {dir : List String}
    {files : List String} {kv : List String × Content}
    (h : kv ∈ fsCopyEntries fs dir files) :
    ∃ p ∈ files, kv = (dir ++ pathComponents p, fsContent fs (pathComponents p)) := by
  obtain ⟨p, hp, heq⟩ := List.mem_map.1 h
  exact ⟨p, hp, heq.symm⟩

theorem fsRestoredFiles_after_commit {st : FsState} {tag : String}
    (hwf : FsWF st.files)
    (hmeta : (snapDirComps tag).head? = some ".vibevc")
    (hnosnap : dirHasEntries st.files (snapDirComps tag) = false) :
    fsRestoredFiles
        (st.files ++ fsCopyEntries st.files (snapDirComps tag) (fsGetFiles st.files))
        tag =
      (st.files.filter (fun kv => kv.1.head? == some ".vibevc") ++
        fsCopyEntries st.files (snapDirComps tag) (fsGetFiles st.files)) ++
      (fsGetFiles st.files).map (fun p =>
        (pathComponents p, fsContent st.files (pathComponents p))) := by
  obtain ⟨ds, hsd⟩ : ∃ ds, snapDirComps tag = ".vibevc" :: ds := by
    cases hsd : snapDirComps tag with
    | nil => rw [hsd] at hmeta; simp at hmeta
    | cons d ds =>
      rw [hsd, List.head?_cons, Option.some_inj] at hmeta
      exact ⟨ds, by rw [hmeta]⟩
  have hcophead : ∀ kv ∈ fsCopyEntries st.files (snapDirComps tag) (fsGetFiles st.files),
      kv.1.head? = some ".vibevc" := by
    intro kv hkv
    obtain ⟨p, -, rfl⟩ := fsCopyEntries_mem hkv
    rw [hsd, List.cons_append, List.head?_cons]
  rw [fsRestoredFiles]
  rw [List.filter_append]
  have hcop_keep : (fsCopyEntries st.files (snapDirComps tag)
      (fsGetFiles st.files)).filter (fun kv => kv.1.head? == some ".vibevc") =
      fsCopyEntries st.files (snapDirComps tag) (fsGetFiles st.files) :=
    List.filter_eq_self.2 (fun kv hkv => by rw [hcophead kv hkv]; exact beq_self_eq_true _)
  rw [hcop_keep, List.filter_append]
  have hold_not_under : (st.files.filter
      (fun kv => kv.1.head? == some ".vibevc")).filter
      (fun kv => decide ((snapDirComps tag).length < kv.1.length) &&
        kv.1.take (snapDirComps tag).length == snapDirComps tag) = [] := by
    rw [List.filter_eq_nil_iff]
    intro kv hkv hunder
    have hmem : kv ∈ st.files := (List.mem_filter.1 hkv).1
    have : dirHasEntries st.files (snapDirComps tag) = true := by
      rw [dirHasEntries, List.any_eq_true]
      exact ⟨kv, hmem, hunder⟩
    rw [hnosnap] at this
    exact Bool.false_ne_true this
  have hcop_under : (fsCopyEntries st.files (snapDirComps tag)
      (fsGetFiles st.files)).filter
      (fun kv => decide ((snapDirComps tag).length < kv.1.length) &&
        kv.1.take (snapDirComps tag).length == snapDirComps tag) =
      fsCopyEntries st.files (snapDirComps tag) (fsGetFiles st.files) := by
    rw [List.filter_eq_self]
    intro kv hkv
    obtain ⟨p, hp, rfl⟩ := fsCopyEntries_mem hkv
    rw [Bool.and_eq_true]
    constructor
    · apply decide_eq_true
      rw [List.length_append]
      have hne := (fsGetFiles_spec hwf hp).2.2.2
      cases hpc : pathComponents p with
      | nil => exact absurd hpc hne
      | cons a l => simp
    · rw [List.take_left]
      exact beq_self_eq_true _
  rw [hold_not_under, hcop_under, List.nil_append]
  have hreroot : (fsCopyEntries st.files (snapDirComps tag)
      (fsGetFiles st.files)).map (fun kv =>
        (kv.1.drop (snapDirComps tag).length, kv.2)) =
      (fsGetFiles st.files).map (fun p =>
        (pathComponents p, fsContent st.files (pathComponents p))) := by
    rw [fsCopyEntries, List.map_map]
    apply List.map_congr_left
    intro p _
    show ((snapDirComps tag ++ pathComponents p).drop (snapDirComps tag).length,
      fsContent st.files (pathComponents p)) = _
    rw [List.drop_left]
  rw [hreroot]

theorem fsScanAndHash_after_roundtrip {st : FsState} {tag : String}
    (hwf : FsWF st.files)
    (hmeta : (snapDirComps tag).head? = some ".vibevc")
    (hnosnap : dirHasEntries st.files (snapDirComps tag) = false) :
    fsScanAndHash (fsRestoredFiles
        (st.files ++ fsCopyEntries st.files (snapDirComps tag) (fsGetFiles st.files))
        tag) =
      (fsGetFiles st.files).map (fun p =>
        (p, fsHashFile st.files (pathComponents p))) := by
  rw [fsRestoredFiles_after_commit hwf hmeta hnosnap]
  have hkeys_vibe : ∀ kv ∈ st.files.filter
      (fun kv => kv.1.head? == some ".vibevc") ++
      fsCopyEntries st.files (snapDirComps tag) (fsGetFiles st.files),
      kv.1.head? = some ".vibevc" := by
    intro kv hkv
    rcases List.mem_append.1 hkv with hkv | hkv
    · exact eq_of_beq (List.mem_filter.1 hkv).2
    · obtain ⟨p, -, rfl⟩ := fsCopyEntries_mem hkv
      obtain ⟨ds, hsd⟩ : ∃ ds, snapDirComps tag = ".vibevc" :: ds := by
        cases hsd : snapDirComps tag with
        | nil => rw [hsd] at hmeta; simp at hmeta
        | cons d ds =>
          rw [hsd, List.head?_cons, Option.some_inj] at hmeta
          exact ⟨ds, by rw [hmeta]⟩
      rw [hsd, List.cons_append, List.head?_cons]
  have hnotmem : ∀ p ∈ fsGetFiles st.files,
      pathComponents p ∉ (st.files.filter
        (fun kv => kv.1.head? == some ".vibevc") ++
        fsCopyEntries st.files (snapDirComps tag)
          (fsGetFiles st.files)).map Prod.fst := by
    intro p hp hmem
    obtain ⟨kv, hkv, hfst⟩ := List.mem_map.1 hmem
    have hig := ignoredKey_of_head_vibevc (hfst ▸ hkeys_vibe kv hkv)
    rw [(fsGetFiles_spec hwf hp).2.1] at hig
    exact Bool.false_ne_true hig
  have hscan : fsGetFiles ((st.files.filter
      (fun kv => kv.1.head? == some ".vibevc") ++
      fsCopyEntries st.files (snapDirComps tag) (fsGetFiles st.files)) ++
      (fsGetFiles st.files).map (fun p =>
        (pathComponents p, fsContent st.files (pathComponents p)))) =
      fsGetFiles st.files := by
    rw [fsGetFiles, List.map_append, List.filter_append]
    have h1 : ((st.files.filter (fun kv => kv.1.head? == some ".vibevc") ++
        fsCopyEntries st.files (snapDirComps tag)
          (fsGetFiles st.files)).map Prod.fst).filter
        (fun k => !ignoredKey k) = [] := by
      rw [List.filter_eq_nil_iff]
      intro k hk
      obtain ⟨kv, hkv, rfl⟩ := List.mem_map.1 hk
      rw [ignoredKey_of_head_vibevc (hkeys_vibe kv hkv)]
      simp
    have h2 : (((fsGetFiles st.files).map (fun p =>
        (pathComponents p, fsContent st.files (pathComponents p)))).map
          Prod.fst).filter (fun k => !ignoredKey k) =
        (fsGetFiles st.files).map (fun p => pathComponents p) := by
      rw [List.map_map]
      have hfst : (fsGetFiles st.files).map (Prod.fst ∘ fun p =>
          (pathComponents p, fsContent st.files (pathComponents p))) =
          (fsGetFiles st.files).map (fun p => pathComponents p) :=
        List.map_congr_left (fun p _ => rfl)
      rw [hfst, List.filter_eq_self]
      intro k hk
      obtain ⟨p, hp, rfl⟩ := List.mem_map.1 hk
      rw [(fsGetFiles_spec hwf hp).2.1]
      rfl
    rw [h1, h2, List.nil_append, List.map_map]
    have hjoin : (fsGetFiles st.files).map (joinComps ∘ fun p => pathComponents p) =
        (fsGetFiles st.files).map id :=
      List.map_congr_left (fun p hp => (fsGetFiles_spec hwf hp).2.2.1)
    rw [hjoin, List.map_id]
    exact (List.sorted_insertionSort pathLE _).insertionSort_eq
  rw [fsScanAndHash, hscan]
  apply List.map_congr_left
  intro p hp
  have hlook : ((st.files.filter (fun kv => kv.1.head? == some ".vibevc") ++
      fsCopyEntries st.files (snapDirComps tag) (fsGetFiles st.files)) ++
      (fsGetFiles st.files).map (fun q =>
        (pathComponents q, fsContent st.files (pathComponents q)))).lookup
      (pathComponents p) =
      some (fsContent st.files (pathComponents p)) := by
    rw [lookup_append_of_not_mem _ _ _ (hnotmem p hp)]
    exact lookup_map_keyed (fun q => pathComponents q)
      (fun k => fsContent st.files k) (fsGetFiles st.files) p hp
  rw [fsHashFile, hlook]
  obtain ⟨c, hc⟩ := lookup_isSome_of_mem_keys (fsGetFiles_spec hwf hp).1
  rw [fsHashFile, hc, fsContent, hc]
  rfl

/-! ## Characterisation of `status` and `restore` -/

theorem statusLists_modified (wt : Tree) (fm : List (String × Option Digest)) :
    (statusLists wt fm).1 = (getFiles wt).filter (fun f =>
      match fm.lookup f with
      | none => false
      | some h => hashFile wt f != h) := rfl

theorem statusLists_new (wt : Tree) (fm : List (String × Option Digest)) :
    (statusLists wt fm).2.1 =
      (getFiles wt).filter (fun f => (fm.lookup f).isNone) := rfl

theorem statusLists_del (wt : Tree) (fm : List (String × Option Digest)) :
    (statusLists wt fm).2.2 =
      (fm.map Prod.fst).filter (fun f => !(getFiles wt).contains f) := rfl

theorem restoreIsDirty_iff_status {st : State} {last : Record}
    (hlast : st.manifest.getLast? = some last) :
    restoreIsDirty st = true ↔
    ¬((statusLists st.workingTree last.file_map).1 = [] ∧
      (statusLists st.workingTree last.file_map).2.1 = []) := by
  rw [restoreIsDirty, hlast, List.any_eq_true, statusLists_modified, statusLists_new]
  constructor
  · rintro ⟨f, hf, hpred⟩ ⟨hm, hn⟩
    cases hfm : last.file_map.lookup f with
    | none =>
      have hmem : f ∈ (getFiles st.workingTree).filter
          (fun f => (last.file_map.lookup f).isNone) :=
        List.mem_filter.2 ⟨hf, by simp [hfm]⟩
      rw [hn] at hmem
      exact absurd hmem (List.not_mem_nil f)
    | some d =>
      rw [hfm] at hpred
      have hmem : f ∈ (getFiles st.workingTree).filter (fun f =>
          match last.file_map.lookup f with
          | none => false
          | some h => hashFile st.workingTree f != h) :=
        List.mem_filter.2 ⟨hf, by simp only [hfm]; exact hpred⟩
      rw [hm] at hmem
      exact absurd hmem (List.not_mem_nil f)
  · intro hne
    rcases not_and_or.1 hne with hm | hn
    · obtain ⟨f, hf⟩ := List.exists_mem_of_ne_nil _ hm
      obtain ⟨hfc, hp⟩ := List.mem_filter.1 hf
      refine ⟨f, hfc, ?_⟩
      cases hfm : last.file_map.lookup f with
      | none => simp [hfm] at hp
      | some d => simp only [hfm]; simpa [hfm] using hp
    · obtain ⟨f, hf⟩ := List.exists_mem_of_ne_nil _ hn
      obtain ⟨hfc, hp⟩ := List.mem_filter.1 hf
      refine ⟨f, hfc, ?_⟩
      rw [Option.isNone_iff_eq_none] at hp
      rw [hp]

theorem restoreRun_found {st : State} {tag : String} {r : Record}
    (h : getCommitByTag st.manifest tag = some r) (force : Bool) :
    restoreRun st tag force =
      if !force && restoreIsDirty st then (.errDirtyWorkingTree, st)
      else (.ok, { st with workingTree := (st.snapshots.lookup tag).getD [] }) := by
  rw [restoreRun, h]

/-! ## Claim theorems -/

/-- C1 counterexample: the claim says restore without `force` fails with
`DirtyWorkingTree` whenever the working tree differs in any way from the
last commit's `file_map`, including a deletion-only difference.  In `stDel`
the only difference is that `a.txt`, recorded in the last commit's
`file_map`, is absent from the working tree (status would classify it as
Deleted), yet `restore("v1", force=false)` proceeds and reports success:
its dirtiness loop runs over the currently present files only. -/
theorem C1_restore_ignores_deletion_only_dirt :
    (statusLists stDel.workingTree recDel.file_map).2.2 = ["a.txt"] ∧
    (statusLists stDel.workingTree recDel.file_map).1 = [] ∧
    (statusLists stDel.workingTree recDel.file_map).2.1 = [] ∧
    (restoreRun stDel "v1" false).1 = .ok := by decide

/-- C1 (amended): for a repository with at least one commit record and the
target tag present in the manifest, restore without `force` fails with
`DirtyWorkingTree` exactly when some currently present file is new or
modified relative to the last commit's `file_map` — a file recorded in the
`file_map` but deleted from the working tree does not trigger the guard —
and on that failure the state is unchanged; restore with `force=true`
never fails with `DirtyWorkingTree`. -/
theorem C1_restore_dirty_guard (st : State) (tag : String) (last : Record)
    (hfound : (getCommitByTag st.manifest tag).isSome)
    (hlast : st.manifest.getLast? = some last) :
    ((restoreRun st tag false).1 = .errDirtyWorkingTree ↔
      ¬((statusLists st.workingTree last.file_map).1 = [] ∧
        (statusLists st.workingTree last.file_map).2.1 = [])) ∧
    ((restoreRun st tag false).1 = .errDirtyWorkingTree →
      (restoreRun st tag false).2 = st) ∧
    (restoreRun st tag true).1 ≠ .errDirtyWorkingTree := by
  obtain ⟨r, hr⟩ := Option.isSome_iff_exists.1 hfound
  have hiff := restoreIsDirty_iff_status hlast
  rw [restoreRun_found hr false, restoreRun_found hr true]
  cases hd : restoreIsDirty st with
  | true =>
    have hrhs := hiff.1 hd
    refine ⟨?_, ?_, ?_⟩ <;> simp [hd, hrhs]
  | false =>
    have hclean : (statusLists st.workingTree last.file_map).1 = [] ∧
        (statusLists st.workingTree last.file_map).2.1 = [] := by
      by_contra h
      have hcontra := hiff.2 h
      rw [hd] at hcontra
      exact Bool.false_ne_true hcontra
    refine ⟨?_, ?_, ?_⟩ <;> simp [hd, hclean.1, hclean.2]

/-- C1 witness: the amended guard instantiated on `stDel`. -/
theorem C1_restore_dirty_guard_witness :
    ((restoreRun stDel "v1" false).1 = .errDirtyWorkingTree ↔
      ¬((statusLists stDel.workingTree recDel.file_map).1 = [] ∧
        (statusLists stDel.workingTree recDel.file_map).2.1 = [])) ∧
    ((restoreRun stDel "v1" false).1 = .errDirtyWorkingTree →
      (restoreRun stDel "v1" false).2 = stDel) ∧
    (restoreRun stDel "v1" true).1 ≠ .errDirtyWorkingTree :=
  C1_restore_dirty_guard stDel "v1" recDel (by decide) (by decide)

/-- C2 counterexample: the claim says the destructive wipe begins only
after the target snapshot subtree's existence on storage is confirmed, and
that restore performs no working-tree mutation when the manifest records
`versionTag` but the snapshot subtree is missing.  In `stGone` the
manifest records `v1` but the snapshot store has no `v1` subtree; restore
still wipes the tree (only the manifest record's existence was checked),
copies nothing back, reports success, and leaves the working tree empty. -/
theorem C2_restore_wipes_despite_missing_snapshot :
    stGone.workingTree ≠ [] ∧
    (restoreRun stGone "v1" true).1 = .ok ∧
    (restoreRun stGone "v1" true).2.workingTree = [] := by decide

/-- C2 (amended): restore gates its destructive phase only on the
existence of a manifest record for the tag, not on the snapshot subtree:
whenever the record exists but the snapshot store has no entry for the
tag, restore (with `force`) wipes the working tree, copies nothing back
(walking the missing directory yields no files) and ends with an empty
working tree, reporting success. -/
theorem C2_restore_missing_snapshot (st : State) (tag : String) (r : Record)
    (hfound : getCommitByTag st.manifest tag = some r)
    (hsnap : st.snapshots.lookup tag = none) :
    restoreRun st tag true = (.ok, { st with workingTree := [] }) := by
  rw [restoreRun_found hfound true]
  simp [hsnap]

/-- C2 witness: the amended behaviour instantiated on `stGone`. -/
theorem C2_restore_missing_snapshot_witness :
    restoreRun stGone "v1" true = (.ok, { stGone with workingTree := [] }) :=
  C2_restore_missing_snapshot stGone "v1" recDel (by decide) (by decide)

/-- C3: for all sequences of commit operations from an initialised
repository (with arbitrary user edits of the working tree in between), no
two manifest records share a `version`; and a commit called with an
explicit `versionTag` that already occurs as the version of some manifest
record fails with `DuplicateVersion` and changes nothing — neither the
manifest nor the snapshot store (the whole state is returned unchanged). -/
theorem C3_manifest_version_uniqueness :
    (∀ st : State, Reachable st → (st.manifest.map Record.version).Nodup) ∧
    (∀ (st : State) (now : Nat) (msg tag : String) (failAt : Option Nat),
      (getCommitByTag st.manifest tag).isSome →
      commitRun st now msg (some tag) failAt = (.errDuplicateVersion, st)) :=
  ⟨fun _ h => (versionsOk_of_reachable h).1,
   fun st now msg tag failAt h => commitRun_duplicate st now msg tag failAt h⟩

/-- C3 witness: after committing `v1` on a fresh repository the manifest
versions are duplicate-free, and committing `v1` again is rejected with
the state unchanged. -/
theorem C3_manifest_version_uniqueness_witness :
    (((commitRun repoA 5 "m1" (some "v1") none).2.manifest.map Record.version).Nodup) ∧
    commitRun (commitRun repoA 5 "m1" (some "v1") none).2 6 "m2" (some "v1") none =
      (.errDuplicateVersion, (commitRun repoA 5 "m1" (some "v1") none).2) :=
  ⟨C3_manifest_version_uniqueness.1 _
      (Reachable.commit repoA 5 "m1" (some "v1") none (Reachable.init _)),
   C3_manifest_version_uniqueness.2 _ 6 "m2" "v1" none (by decide)⟩

/-- C4 counterexample: the claim quantifies over every committed working
tree and version tag, but for the accepted tag `"../../escape"` the
snapshot directory resolves to `<root>/escape`, inside the working tree:
restore's wipe (which spares only `.vibevc`) deletes the snapshot itself
before the copy-back, so walking it yields nothing and the restored scan
is empty — not the `file_map` `[("a.txt", …)]` recorded by the commit. -/
theorem C4_roundtrip_fails_for_traversal_tag :
    (fsCommit fsRepoA 7 "m" (some "../../escape") none).1 = .ok "../../escape" ∧
    ((fsCommit fsRepoA 7 "m" (some "../../escape") none).2.manifest.getLast?).map
        Record.file_map = some [("a.txt", some (md5 [1]))] ∧
    (fsRestore (fsCommit fsRepoA 7 "m" (some "../../escape") none).2
        "../../escape" true).1 = .ok ∧
    fsScanAndHash (fsRestore (fsCommit fsRepoA 7 "m" (some "../../escape") none).2
        "../../escape" true).2.files = [] ∧
    ([] : List (String × Option Digest)) ≠ [("a.txt", some (md5 [1]))] := by decide

/-- C4 (amended): for every working tree (a well-formed file store) and
every commit whose version tag's snapshot directory resolves under the
metadata directory `.vibevc` — every ordinary tag; only traversal tags
like `"../../escape"` escape it — committing and then immediately
restoring that version with `force` succeeds and produces a working tree
whose scan (sorted non-ignored relative paths) with per-file digests
exactly equals the `file_map` recorded in the commit's manifest record. -/
theorem C4_commit_restore_roundtrip (st : FsState) (now : Nat) (msg : String)
    (tagOpt : Option String) (tag : String) (st' : FsState) (rec : Record)
    (hwf : FsWF st.files)
    (hmeta : (snapDirComps tag).head? = some ".vibevc")
    (hcommit : fsCommit st now msg tagOpt none = (.ok tag, st'))
    (hrec : st'.manifest.getLast? = some rec) :
    (fsRestore st' tag true).1 = .ok ∧
    fsScanAndHash (fsRestore st' tag true).2.files = rec.file_map := by
  obtain ⟨hnosnap, hst', -, -⟩ := fsCommit_ok hcommit
  subst hst'
  have hrec' : rec = fsNewRecord st.files (fsGetFiles st.files) tag
      (formatUniqueId now) (formatTimestamp now) msg := by
    rw [fsCommitSuccessState] at hrec
    dsimp only at hrec
    rw [List.getLast?_concat] at hrec
    exact (Option.some_injective _ hrec).symm
  have hfound : getCommitByTag (fsCommitSuccessState st now msg tag).manifest tag =
      some (match getCommitByTag st.manifest tag with
            | some r => r
            | none => fsNewRecord st.files (fsGetFiles st.files) tag
                (formatUniqueId now) (formatTimestamp now) msg) := by
    rw [fsCommitSuccessState]
    dsimp only
    rw [getCommitByTag, List.find?_append]
    cases hfind : getCommitByTag st.manifest tag with
    | some r => rw [getCommitByTag] at hfind; rw [hfind]; rfl
    | none =>
      rw [getCommitByTag] at hfind
      rw [hfind]
      simp [fsNewRecord]
  rw [fsRestore_found hfound true]
  have hcond : (!true && fsIsDirty (fsCommitSuccessState st now msg tag)) = false := rfl
  rw [hcond, if_neg Bool.false_ne_true]
  refine ⟨rfl, ?_⟩
  dsimp only
  have hfiles : (fsCommitSuccessState st now msg tag).files =
      st.files ++ fsCopyEntries st.files (snapDirComps tag) (fsGetFiles st.files) := rfl
  rw [hfiles, fsScanAndHash_after_roundtrip hwf hmeta hnosnap, hrec']
  rfl

/-- C4 witness: the round-trip on a concrete one-file repository under the
ordinary tag `v1`, whose snapshot directory resolves to
`.vibevc/snapshots/v1`. -/
theorem C4_commit_restore_roundtrip_witness :
    (fsRestore (fsCommit fsRepoA 5 "m" (some "v1") none).2 "v1" true).1 = .ok ∧
    fsScanAndHash
        (fsRestore (fsCommit fsRepoA 5 "m" (some "v1") none).2 "v1" true).2.files =
      (fsNewRecord fsRepoA.files (fsGetFiles fsRepoA.files) "v1"
        (formatUniqueId 5) (formatTimestamp 5) "m").file_map :=
  C4_commit_restore_roundtrip fsRepoA 5 "m" (some "v1") "v1" _ _ (by decide)
    (by decide) (by decide) (by decide)

/-- C5 counterexample: the claim says a successful commit's only state
changes are a new subtree under the snapshots directory and one manifest
record, with the working tree not mutated.  A commit with the accepted
tag `"../../escape"` succeeds but materialises its snapshot at
`<root>/escape` — a location whose resolved path does not lie under the
metadata directory — copying `a.txt` into the working tree and thereby
mutating it. -/
theorem C5_commit_mutates_tree_for_traversal_tag :
    (fsCommit fsRepoA 7 "m" (some "../../escape") none).1 = .ok "../../escape" ∧
    fsWorkingTree (fsCommit fsRepoA 7 "m" (some "../../escape") none).2.files ≠
      fsWorkingTree fsRepoA.files ∧
    (["escape", "a.txt"], ([1] : Content)) ∈
      fsWorkingTree (fsCommit fsRepoA 7 "m" (some "../../escape") none).2.files ∧
    (snapDirComps "../../escape").head? ≠ some ".vibevc" := by decide

/-- C5 (amended): for every commit that succeeds with a version tag whose
snapshot directory resolves under the metadata directory `.vibevc` (every
ordinary tag), the working-tree portion of the file store is unchanged,
the manifest grows by exactly one record carrying that tag (all prior
records unchanged), and every newly created file lies under the resolved
snapshot directory; a commit with a traversal tag can instead place the
snapshot inside the working tree, mutating it (counterexample).  A commit
whose snapshot copy fails partway persists no manifest record, since the
manifest is saved only after the whole copy loop completes. -/
theorem C5_commit_frame (st : FsState) (now : Nat) (msg : String)
    (tagOpt : Option String) (failAt : Option Nat) :
    (∀ tag st', fsCommit st now msg tagOpt failAt = (.ok tag, st') →
      (snapDirComps tag).head? = some ".vibevc" →
      fsWorkingTree st'.files = fsWorkingTree st.files ∧
      (∃ rec : Record, rec.version = some tag ∧
        st'.manifest = st.manifest ++ [rec]) ∧
      (∃ snap : FileStore, st'.files = st.files ++ snap ∧
        ∀ kv ∈ snap, kv.1.take (snapDirComps tag).length = snapDirComps tag)) ∧
    ((fsCommit st now msg tagOpt failAt).1 = .errCopyFailed →
      (fsCommit st now msg tagOpt failAt).2.manifest = st.manifest) := by
  constructor
  · intro tag st' h hmeta
    obtain ⟨-, hst', -, -⟩ := fsCommit_ok h
    subst hst'
    obtain ⟨ds, hsd⟩ : ∃ ds, snapDirComps tag = ".vibevc" :: ds := by
      cases hsd : snapDirComps tag with
      | nil => rw [hsd] at hmeta; simp at hmeta
      | cons d ds =>
        rw [hsd, List.head?_cons, Option.some_inj] at hmeta
        exact ⟨ds, by rw [hmeta]⟩
    have hfiles : (fsCommitSuccessState st now msg tag).files =
        st.files ++ fsCopyEntries st.files (snapDirComps tag) (fsGetFiles st.files) := rfl
    refine ⟨?_, ⟨_, rfl, rfl⟩, ⟨_, hfiles, ?_⟩⟩
    · rw [hfiles, fsWorkingTree, List.filter_append]
      have hnone : (fsCopyEntries st.files (snapDirComps tag)
          (fsGetFiles st.files)).filter
          (fun kv => kv.1.head? != some ".vibevc") = [] := by
        rw [List.filter_eq_nil_iff]
        intro kv hkv
        obtain ⟨p, -, rfl⟩ := fsCopyEntries_mem hkv
        rw [hsd, List.cons_append, List.head?_cons]
        simp
      rw [hnone, List.append_nil]
      rfl
    · intro kv hkv
      obtain ⟨p, -, rfl⟩ := fsCopyEntries_mem hkv
      exact List.take_left _ _
  · exact fsCommit_copyFail

/-- C5 witness: the frame conditions on a concrete successful commit
under the ordinary tag `w1`, and the no-manifest-mutation condition on a
concrete commit whose first file copy fails. -/
theorem C5_commit_frame_witness :
    (fsWorkingTree (fsCommit fsRepoA 5 "m" (some "w1") none).2.files =
        fsWorkingTree fsRepoA.files ∧
      (∃ rec : Record, rec.version = some "w1" ∧
        (fsCommit fsRepoA 5 "m" (some "w1") none).2.manifest =
          fsRepoA.manifest ++ [rec]) ∧
      (∃ snap : FileStore,
        (fsCommit fsRepoA 5 "m" (some "w1") none).2.files =
          fsRepoA.files ++ snap ∧
        ∀ kv ∈ snap,
          kv.1.take (snapDirComps "w1").length = snapDirComps "w1")) ∧
    ((fsCommit fsRepoA 5 "m" (some "w1") (some 0)).2.manifest =
      fsRepoA.manifest) :=
  ⟨(C5_commit_frame fsRepoA 5 "m" (some "w1") none).1 "w1" _ (by decide) (by decide),
   (C5_commit_frame fsRepoA 5 "m" (some "w1") (some 0)).2 (by decide)⟩

/-- C6: with no prior commit, `status` reports that there is nothing to
compare; with at least one commit, it classifies against the last record's
`file_map`: a scanned path absent from the `file_map` is New, a path
present in both with a differing digest is Modified, a `file_map` key
absent from the scan is Deleted, and the tree is reported clean exactly
when all three sets are empty.  `status` is a pure function of the state
(no mutation). -/
theorem C6_status_classification (st : State) :
    (st.manifest = [] → statusRun st = .noCommits) ∧
    (∀ last : Record, st.manifest.getLast? = some last →
      ((∀ f, f ∈ (statusLists st.workingTree last.file_map).2.1 ↔
          f ∈ getFiles st.workingTree ∧ last.file_map.lookup f = none) ∧
       (∀ f, f ∈ (statusLists st.workingTree last.file_map).1 ↔
          f ∈ getFiles st.workingTree ∧
          ∃ d, last.file_map.lookup f = some d ∧ hashFile st.workingTree f ≠ d) ∧
       (∀ f, f ∈ (statusLists st.workingTree last.file_map).2.2 ↔
          f ∈ last.file_map.map Prod.fst ∧ f ∉ getFiles st.workingTree) ∧
       (statusRun st = .clean ↔
          statusLists st.workingTree last.file_map = ([], [], [])))) := by
  constructor
  · intro h
    rw [statusRun, h]
    rfl
  · intro last hlast
    refine ⟨?_, ?_, ?_, ?_⟩
    · intro f
      rw [statusLists_new, List.mem_filter, Option.isNone_iff_eq_none]
    · intro f
      rw [statusLists_modified, List.mem_filter]
      constructor
      · rintro ⟨hf, hp⟩
        refine ⟨hf, ?_⟩
        cases hfm : last.file_map.lookup f with
        | none => simp [hfm] at hp
        | some d =>
          rw [hfm] at hp
          exact ⟨d, rfl, bne_iff_ne.1 hp⟩
      · rintro ⟨hf, d, hd, hne⟩
        exact ⟨hf, by rw [hd]; exact bne_iff_ne.2 hne⟩
    · intro f
      rw [statusLists_del, List.mem_filter]
      constructor
      · rintro ⟨hf, hp⟩
        refine ⟨hf, fun hmem => ?_⟩
        rw [← contains_iff_mem] at hmem
        rw [hmem] at hp
        exact Bool.false_ne_true hp
      · rintro ⟨hf, hp⟩
        refine ⟨hf, ?_⟩
        cases hcont : (getFiles st.workingTree).contains f with
        | false => rfl
        | true => exact absurd (contains_iff_mem.1 hcont) hp
    · rw [statusRun, hlast]
      dsimp only
      cases hcond : ((statusLists st.workingTree last.file_map).1.isEmpty &&
          (statusLists st.workingTree last.file_map).2.1.isEmpty &&
          (statusLists st.workingTree last.file_map).2.2.isEmpty) with
      | true =>
        simp only [Bool.and_eq_true, List.isEmpty_iff] at hcond
        rw [if_pos]
        · constructor
          · intro _
            obtain ⟨⟨h1, h2⟩, h3⟩ := hcond
            calc statusLists st.workingTree last.file_map
                = ((statusLists st.workingTree last.file_map).1,
                   (statusLists st.workingTree last.file_map).2.1,
                   (statusLists st.workingTree last.file_map).2.2) := rfl
              _ = ([], [], []) := by rw [h1, h2, h3]
          · intro _
            rfl
        · simp [hcond.1.1, hcond.1.2, hcond.2, List.isEmpty_iff]
      | false =>
        rw [if_neg]
        · constructor
          · intro h
            cases hv : last.version with
            | none => rw [hv] at h; exact absurd h (by simp)
            | some v => rw [hv] at h; exact absurd h (by simp)
          · intro h
            rw [h] at hcond
            simp at hcond
        · exact fun hcontra => Bool.false_ne_true hcontra

/-- C6 witness: the classification instantiated on `stMix`, whose tree has
exactly one modified, one new and one deleted path, and on the
commit-free repository `repoA`. -/
theorem C6_status_classification_witness :
    (statusRun repoA = .noCommits) ∧
    ("b.txt" ∈ (statusLists stMix.workingTree recMix.file_map).2.1 ↔
      "b.txt" ∈ getFiles stMix.workingTree ∧
      recMix.file_map.lookup "b.txt" = none) ∧
    ("a.txt" ∈ (statusLists stMix.workingTree recMix.file_map).1 ↔
      "a.txt" ∈ getFiles stMix.workingTree ∧
      ∃ d, recMix.file_map.lookup "a.txt" = some d ∧
        hashFile stMix.workingTree "a.txt" ≠ d) ∧
    ("c.txt" ∈ (statusLists stMix.workingTree recMix.file_map).2.2 ↔
      "c.txt" ∈ recMix.file_map.map Prod.fst ∧
      "c.txt" ∉ getFiles stMix.workingTree) ∧
    (statusRun stMix = .clean ↔
      statusLists stMix.workingTree recMix.file_map = ([], [], [])) :=
  ⟨(C6_status_classification repoA).1 rfl,
   ((C6_status_classification stMix).2 recMix (by decide)).1 "b.txt",
   ((C6_status_classification stMix).2 recMix (by decide)).2.1 "a.txt",
   ((C6_status_classification stMix).2 recMix (by decide)).2.2.1 "c.txt",
   ((C6_status_classification stMix).2 recMix (by decide)).2.2.2⟩

/-- C7 counterexample: the claim says auto-generated tags are unique by
construction of the time-derived tag.  The tag is derived from the clock
at second resolution, so a second auto commit within the same second
generates the identical tag — already recorded as a version — and the
commit fails with an uncaught snapshot-folder-exists error instead of
committing under a fresh unique tag. -/
theorem C7_auto_tag_collision :
    (commitRun repoA 5 "m1" none none).1 = .ok (formatUniqueId 5) ∧
    (commitRun repoA 5 "m1" none none).2.manifest.map Record.version =
      [some (formatUniqueId 5)] ∧
    commitRun (commitRun repoA 5 "m1" none none).2 5 "m2" none none =
      (.errSnapshotExists, (commitRun repoA 5 "m1" none none).2) := by decide

/-- C7 (amended): a commit without an explicit tag records the
timestamp-derived `unique_id` of the current second as its version; the
construction alone does not guarantee uniqueness — a second auto commit
within the same second generates the identical tag and fails at snapshot
creation (leaving the state unchanged, without consulting the manifest) —
so among successful commits the auto tags stay distinct via the snapshot
store, not by tag construction. -/
theorem C7_auto_tag_behavior :
    (∀ (st : State) (now : Nat) (msg : String) (failAt : Option Nat)
        (tag : String) (st' : State),
      commitRun st now msg none failAt = (.ok tag, st') →
      tag = formatUniqueId now) ∧
    (∀ (st st1 : State) (now : Nat) (msg1 msg2 : String) (tag1 : String)
        (fa2 : Option Nat),
      commitRun st now msg1 none none = (.ok tag1, st1) →
      commitRun st1 now msg2 none fa2 = (.errSnapshotExists, st1)) := by
  constructor
  · intro st now msg failAt tag st' h
    exact (commitRun_ok h).2.2.1 rfl
  · intro st st1 now msg1 msg2 tag1 fa2 h
    obtain ⟨hc, hst1, htag, -⟩ := commitRun_ok h
    have htag1 : tag1 = formatUniqueId now := htag rfl
    subst htag1
    subst hst1
    have hcontains : ((commitSuccessState st now msg1
        (formatUniqueId now)).snapshots.map Prod.fst).contains
        (formatUniqueId now) = true := by
      rw [commitSuccessState]
      dsimp only
      rw [List.map_append, List.contains_eq_any_beq, List.any_eq_true]
      exact ⟨formatUniqueId now, List.mem_append_right _ (by simp),
        beq_self_eq_true _⟩
    rw [commitRun]
    rw [commitCore, if_pos hcontains]

/-- C7 witness: the amended behaviour instantiated on a fresh repository
at second 5. -/
theorem C7_auto_tag_behavior_witness :
    ("5" = formatUniqueId 5) ∧
    commitRun (commitRun repoA 5 "m1" none none).2 5 "m2" none none =
      (.errSnapshotExists, (commitRun repoA 5 "m1" none none).2) :=
  ⟨C7_auto_tag_behavior.1 repoA 5 "m1" none "5"
      (commitRun repoA 5 "m1" none none).2 (by decide),
   C7_auto_tag_behavior.2 repoA (commitRun repoA 5 "m1" none none).2 5
      "m1" "m2" "5" none (by decide)⟩

/-- C8 counterexample: the claim says every structurally corrupted
manifest document — anything not parseable into the expected sequence of
commit records — is reported with a warning and returned as the empty
sequence.  A document holding the JSON number `42` is syntactically valid
JSON but not a sequence of records; `json.load` succeeds, so the
`JSONDecodeError` handler never fires: `load` returns the value unchanged,
with no warning, and the caller sees neither a record sequence nor the
empty one. -/
theorem C8_load_passes_wrong_shape_through :
    (loadManifest (some (.otherShape "the JSON number 42"))).warned = false ∧
    (loadManifest (some (.otherShape "the JSON number 42"))).value =
      .otherShape "the JSON number 42" ∧
    (loadManifest (some (.otherShape "the JSON number 42"))).value ≠
      .records [] := by decide

/-- C8 (amended): `load` treats only a syntactically invalid manifest
document (a JSON parse failure) as corrupted, warning and returning the
empty sequence; a missing file yields the empty sequence silently; a
well-formed record array is returned as stored; but a syntactically valid
document of any other shape is returned to the caller unchanged and
unchecked, so callers are not guaranteed to see either the stored record
sequence or the empty sequence. -/
theorem C8_load_manifest_behavior :
    loadManifest none = ⟨false, .records []⟩ ∧
    loadManifest (some .malformedSyntax) = ⟨true, .records []⟩ ∧
    (∀ rs : List Record, loadManifest (some (.records rs)) = ⟨false, .records rs⟩) ∧
    (∀ d : String, loadManifest (some (.otherShape d)) = ⟨false, .otherShape d⟩) :=
  ⟨rfl, rfl, fun _ => rfl, fun _ => rfl⟩

/-- C8 witness: the amended load behaviour instantiated on a stored
one-record array. -/
theorem C8_load_manifest_behavior_witness :
    loadManifest (some (.records [recDel])) = ⟨false, .records [recDel]⟩ :=
  C8_load_manifest_behavior.2.2.1 [recDel]

/-- C9: when the most recent manifest record lacks a `version` key,
`diff` called without a version argument hits the raw
`manifest[-1]['version']` lookup and raises `KeyError`, and `status` on a
non-clean tree likewise raises when printing the current version — while
`log` falls back to the record's `id` and `findByVersion` only ever
returns records that genuinely carry the looked-up version. -/
theorem C9_legacy_version_key_errors (st : State) (last : Record)
    (hlast : st.manifest.getLast? = some last)
    (hnover : last.version = none)
    (hdirty : ¬((statusLists st.workingTree last.file_map).1 = [] ∧
                (statusLists st.workingTree last.file_map).2.1 = [] ∧
                (statusLists st.workingTree last.file_map).2.2 = [])) :
    statusRun st = .keyErrorVersion ∧
    diffRun st none = .keyErrorVersion ∧
    logDisplayVersion last = last.id ∧
    (∀ (t : String) (r : Record),
      getCommitByTag st.manifest t = some r → r.version = some t) := by
  refine ⟨?_, ?_, ?_, ?_⟩
  · rw [statusRun, hlast]
    dsimp only
    rw [if_neg, hnover]
    intro hcond
    rw [Bool.and_eq_true, Bool.and_eq_true] at hcond
    exact hdirty ⟨List.isEmpty_iff.1 hcond.1.1,
      List.isEmpty_iff.1 hcond.1.2, List.isEmpty_iff.1 hcond.2⟩
  · simp only [diffRun, hlast, hnover]
  · rw [logDisplayVersion, hnover]
    rfl
  · intro t r h
    have hp := List.find?_some h
    exact eq_of_beq hp

/-- C9 witness: the key errors instantiated on `stLegacy`, whose only
commit record is a legacy record and whose tree is modified. -/
theorem C9_legacy_version_key_errors_witness :
    statusRun stLegacy = .keyErrorVersion ∧
    diffRun stLegacy none = .keyErrorVersion ∧
    logDisplayVersion recLegacy = recLegacy.id ∧
    (∀ (t : String) (r : Record),
      getCommitByTag stLegacy.manifest t = some r → r.version = some t) :=
  C9_legacy_version_key_errors stLegacy recLegacy (by decide) (by decide)
    (by decide)

/-- C10: version tags are spliced into the snapshot path unvalidated: for
the explicit tag `"../../escape"` the snapshot directory resolves to
`<root>/escape` — directly inside the repository root (the working tree)
and not under `<root>/.vibevc/snapshots` — and commit succeeds, recording
that tag as a valid version in the manifest. -/
theorem C10_version_tag_path_escape :
    snapshotFolderComponents ["home", "user", "proj"] "../../escape" =
      ["home", "user", "proj", "escape"] ∧
    (snapshotFolderComponents ["home", "user", "proj"] "../../escape").take 5 ≠
      ["home", "user", "proj", ".vibevc", "snapshots"] ∧
    (commitRun repoA 7 "oops" (some "../../escape") none).1 =
      .ok "../../escape" ∧
    (commitRun repoA 7 "oops" (some "../../escape") none).2.manifest.map
        Record.version = [some "../../escape"] := by decide

end VibeVC
